import Mathlib

/-!
Shallow embedding of the arithmetization / witness-resolution core of the
plonky2 slice: the random-access gate (`gates/random_access.rs`) and the
witness-propagation engine (`iop/generator.rs`), together with theorems
settling the specification claims about them.

Machine integers (`usize`) are modelled as `Nat`; where wrapping matters
(the `bits - 1` / `num_copies - 1` subtractions inside `num_wires`) the
arithmetic is done explicitly modulo `2^64`.  Field-generic code is
embedded generically over a commutative ring; the concrete Goldilocks
field `ZMod (2^64 - 2^32 + 1)` instantiates it where the source fixes a
`RichField`.  A Rust `panic!` / failed assertion is modelled as `none`.
-/

/-! ## The random-access gate: layout and sizes -/

/-- A gate for checking that a particular element of a list matches a given
value (`RandomAccessGate` in `gates/random_access.rs`): `num_copies`
independent accesses into a list of `2^bits` elements packed into one row. -/
structure RandomAccessGate where
  bits : Nat
  num_copies : Nat
  deriving DecidableEq, Repr

namespace RandomAccessGate

/-- Source: `1 << self.bits` (in-range for `bits < 64`, which every use
of the gate satisfies since the row must fit the wire budget). -/
def vec_size (g : RandomAccessGate) : Nat := 2 ^ g.bits

/-- Source: `(2 + self.vec_size()) * copy`. -/
def wire_access_index (g : RandomAccessGate) (copy : Nat) : Nat :=
  (2 + g.vec_size) * copy

/-- Source: `(2 + self.vec_size()) * copy + 1`. -/
def wire_claimed_element (g : RandomAccessGate) (copy : Nat) : Nat :=
  (2 + g.vec_size) * copy + 1

/-- Source: `(2 + self.vec_size()) * copy + 2 + i`. -/
def wire_list_item (g : RandomAccessGate) (i copy : Nat) : Nat :=
  (2 + g.vec_size) * copy + 2 + i

/-- Source: `(2 + self.vec_size()) * self.num_copies`. -/
def start_of_intermediate_wires (g : RandomAccessGate) : Nat :=
  (2 + g.vec_size) * g.num_copies

/-- Routed wires: everything before the intermediate (bit) wires. -/
def num_routed_wires (g : RandomAccessGate) : Nat :=
  g.start_of_intermediate_wires

/-- An intermediate wire holding the purported `i`-th bit of the index. -/
def wire_bit (g : RandomAccessGate) (i copy : Nat) : Nat :=
  g.start_of_intermediate_wires + copy * g.bits + i

/-- Source: `self.bits + 1`. -/
def degree (g : RandomAccessGate) : Nat := g.bits + 1

/-- Source: `num_copies * (bits + 2)`. -/
def num_constraints (g : RandomAccessGate) : Nat :=
  g.num_copies * (g.bits + 2)

end RandomAccessGate

/-! ## usize arithmetic (wrapping, for `num_wires`) -/

/-- The `usize` modulus on a 64-bit target. -/
def USIZE : Nat := 2 ^ 64

/-- Wrapping `usize` addition. -/
def uadd (a b : Nat) : Nat := (a + b) % USIZE

/-- Wrapping `usize` multiplication. -/
def umul (a b : Nat) : Nat := (a * b) % USIZE

/-- Wrapping `usize` subtraction (two's complement). -/
def usub (a b : Nat) : Nat := (a + (USIZE - b % USIZE)) % USIZE

namespace RandomAccessGate

/-- The body of `wire_bit` evaluated in wrapping `usize` arithmetic; used by
`num_wires`, whose `bits - 1` / `num_copies - 1` arguments may wrap. -/
def wire_bit_u (g : RandomAccessGate) (i copy : Nat) : Nat :=
  uadd (uadd (umul (uadd 2 g.vec_size) g.num_copies) (umul copy g.bits)) i

/-- Source: `self.wire_bit(self.bits - 1, self.num_copies - 1) + 1`, with the
`usize` subtractions and the subsequent index arithmetic wrapping mod `2^64`. -/
def num_wires (g : RandomAccessGate) : Nat :=
  uadd (g.wire_bit_u (usub g.bits 1) (usub g.num_copies 1)) 1

end RandomAccessGate

/-! ## Constraint evaluation, three modes

All three evaluators are generic over a commutative ring `R`; wire values
are read through a total assignment `w : Nat → R` of the row's wires.  The
extension field, the packed base field and the recursive extension targets
are all instances of this one generic evaluation. -/

/-- Field `double`: the field abstraction's `x.double() = x + x` (the spec's
field interface lists `double` among the supplied operations). -/
def fdouble {R : Type} [CommRing R] (x : R) : R := x + x

/-- One folding level: `list_items.iter().tuples().map(|(&x, &y)| x + b * (y - x))`.
Rust's `tuples()` pairs consecutive elements and drops a trailing unpaired one. -/
def pairSelect {R : Type} [CommRing R] (b : R) : List R → List R
  | x :: y :: rest => (x + b * (y - x)) :: pairSelect b rest
  | _ => []

namespace RandomAccessGate

/-- Constraints of one copy, single-point mode (`eval_unfiltered`): the
boolean checks `b * (b - 1)`, the index-reconstruction check (fold of
`acc.double() + b` over the reversed bits), and the list-fold check. -/
def evalCopy {R : Type} [CommRing R] (g : RandomAccessGate) (w : Nat → R)
    (copy : Nat) : List R :=
  let access_index := w (g.wire_access_index copy)
  let list_items := (List.range g.vec_size).map (fun i => w (g.wire_list_item i copy))
  let claimed_element := w (g.wire_claimed_element copy)
  let bits := (List.range g.bits).map (fun i => w (g.wire_bit i copy))
  bits.map (fun b => b * (b - 1))
    ++ [bits.reverse.foldl (fun acc b => fdouble acc + b) 0 - access_index]
    ++ [(bits.foldl (fun items b => pairSelect b items) list_items).headD 0
          - claimed_element]

/-- Source: `RandomAccessGate::eval_unfiltered`, one constraint list per copy,
concatenated in copy order. -/
def eval_unfiltered {R : Type} [CommRing R] (g : RandomAccessGate)
    (w : Nat → R) : List R :=
  ((List.range g.num_copies).map (g.evalCopy w)).flatten

/-- Constraints of one copy in packed base-field mode
(`eval_unfiltered_base_packed`); packed lane arithmetic is component-wise
base-field arithmetic, so one lane is one ring evaluation.  The only textual
differences from `evalCopy` are `b * (b - F::ONE)` and the reconstruction
step `acc + acc + b`. -/
def evalCopyPacked {R : Type} [CommRing R] (g : RandomAccessGate) (w : Nat → R)
    (copy : Nat) : List R :=
  let access_index := w (g.wire_access_index copy)
  let list_items := (List.range g.vec_size).map (fun i => w (g.wire_list_item i copy))
  let claimed_element := w (g.wire_claimed_element copy)
  let bits := (List.range g.bits).map (fun i => w (g.wire_bit i copy))
  bits.map (fun b => b * (b - 1))
    ++ [bits.reverse.foldl (fun acc b => acc + acc + b) 0 - access_index]
    ++ [(bits.foldl (fun items b => pairSelect b items) list_items).headD 0
          - claimed_element]

/-- Source: `RandomAccessGate::eval_unfiltered_base_packed`, with the
constraints it pushes through the `StridedConstraintConsumer` collected in
push order. -/
def eval_unfiltered_base_packed {R : Type} [CommRing R] (g : RandomAccessGate)
    (w : Nat → R) : List R :=
  ((List.range g.num_copies).map (g.evalCopyPacked w)).flatten

end RandomAccessGate

/-! ## Recursive (in-circuit) evaluation

The `CircuitBuilder` extension-arithmetic helpers are not part of the given
slice; they are modelled from the spec, each by its arithmetic meaning on
the values the built wires carry. -/

/-- Modelled from the spec: `CircuitBuilder::mul_sub_extension a b c`
computes `a * b - c` (builder helpers are external to the slice). -/
def mul_sub_extension {R : Type} [CommRing R] (a b c : R) : R := a * b - c

/-- Modelled from the spec: `CircuitBuilder::mul_add_extension a b c`
computes `a * b + c`. -/
def mul_add_extension {R : Type} [CommRing R] (a b c : R) : R := a * b + c

/-- Modelled from the spec: `CircuitBuilder::sub_extension a b` computes
`a - b`. -/
def sub_extension {R : Type} [CommRing R] (a b : R) : R := a - b

/-- Modelled from the spec (section 4.2): `select_ext_generalized b y x` is the
multiplexer controlled by `b`, the linear interpolation `x + b * (y - x)`. -/
def select_ext_generalized {R : Type} [CommRing R] (b y x : R) : R :=
  x + b * (y - x)

/-- One folding level of the recursive evaluator:
`map(|(&x, &y)| builder.select_ext_generalized(b, y, x))`. -/
def pairSelectRec {R : Type} [CommRing R] (b : R) : List R → List R
  | x :: y :: rest => select_ext_generalized b y x :: pairSelectRec b rest
  | _ => []

namespace RandomAccessGate

/-- Constraints of one copy, recursive mode (`eval_unfiltered_recursively`),
expressed on the values carried by the built extension targets:
`mul_sub_extension b b b` for the boolean checks, `mul_add_extension acc two b`
for the reconstruction fold, `select_ext_generalized` for the list fold. -/
def evalCopyRec {R : Type} [CommRing R] (g : RandomAccessGate) (w : Nat → R)
    (copy : Nat) : List R :=
  let access_index := w (g.wire_access_index copy)
  let list_items := (List.range g.vec_size).map (fun i => w (g.wire_list_item i copy))
  let claimed_element := w (g.wire_claimed_element copy)
  let bits := (List.range g.bits).map (fun i => w (g.wire_bit i copy))
  bits.map (fun b => mul_sub_extension b b b)
    ++ [sub_extension
          (bits.reverse.foldl (fun acc b => mul_add_extension acc 2 b) 0)
          access_index]
    ++ [sub_extension
          ((bits.foldl (fun items b => pairSelectRec b items) list_items).headD 0)
          claimed_element]

/-- Source: `RandomAccessGate::eval_unfiltered_recursively`, on the values
carried by the emitted extension targets. -/
def eval_unfiltered_recursively {R : Type} [CommRing R] (g : RandomAccessGate)
    (w : Nat → R) : List R :=
  ((List.range g.num_copies).map (g.evalCopyRec w)).flatten

/-- Source: `RandomAccessGate::eval_unfiltered_base_one` is
`panic!("use eval_unfiltered_base_packed instead")`; the unconditional panic
is modelled as `none`. -/
def eval_unfiltered_base_one {R : Type} [CommRing R] (_g : RandomAccessGate)
    (_w : Nat → R) : Option (List R) := none

/-- Modelled from the spec (section 4.1 mode 2): the default
`PackedEvaluableBase::eval_unfiltered_base_batch_packed` (in `packed_util.rs`,
outside the slice) batches the per-row packed evaluation over all rows. -/
def eval_unfiltered_base_batch_packed {R : Type} [CommRing R]
    (g : RandomAccessGate) (rows : List (Nat → R)) : List R :=
  (rows.map g.eval_unfiltered_base_packed).flatten

/-- Source: `RandomAccessGate::eval_unfiltered_base_batch` is
`self.eval_unfiltered_base_batch_packed(vars_base)`. -/
def eval_unfiltered_base_batch {R : Type} [CommRing R]
    (g : RandomAccessGate) (rows : List (Nat → R)) : List R :=
  g.eval_unfiltered_base_batch_packed rows

end RandomAccessGate

/-! ## Circuit configuration and `new_from_config` -/

/-- The two `CircuitConfig` fields consumed by `new_from_config`
(`plonk/circuit_data.rs` is outside the slice; modelled from the spec's
routed/total wire budgets). -/
structure CircuitConfig where
  num_wires : Nat
  num_routed_wires : Nat
  deriving DecidableEq, Repr

namespace RandomAccessGate

/-- Source: `RandomAccessGate::new_from_config`: the largest `num_copies`
fitting both the routed budget (`(2 + vec_size) * num_copies` routed wires)
and the total budget (`(2 + vec_size + bits) * num_copies` wires). -/
def new_from_config (config : CircuitConfig) (bits : Nat) : RandomAccessGate :=
  let vec_sz := 2 ^ bits
  { bits := bits
    num_copies := min (config.num_routed_wires / (2 + vec_sz))
      (config.num_wires / (2 + vec_sz + bits)) }

end RandomAccessGate

/-! ## Targets and wires -/

/-- A (row, slot) wire position (`iop/wire.rs`, modelled from the spec's
addressing model: rows are gate instances, slots are template-defined). -/
structure Wire where
  gate : Nat
  input : Nat
  deriving DecidableEq, Repr

/-- A reference to a witness slot (`iop/target.rs`, modelled from the spec:
either a concrete wire or a free-standing virtual target). -/
inductive Target where
  | wire (w : Wire)
  | virtualTarget (index : Nat)
  deriving DecidableEq, Repr

/-! ## The random-access generator

Witness values live in the concrete Goldilocks field; `to_canonical_u64`
is `ZMod.val`.  The generator is only ever run by the engine once all its
dependencies are present, so its read access to the witness is modelled as
a total assignment of this row's wires. -/

/-- The Goldilocks field `2^64 - 2^32 + 1` used by the gate's `RichField`. -/
abbrev GF : Type := ZMod 18446744069414584321

/-- Source: `RandomAccessGenerator { gate_index, gate, copy }`. -/
structure RandomAccessGenerator where
  gate_index : Nat
  gate : RandomAccessGate
  copy : Nat
  deriving DecidableEq, Repr

namespace RandomAccessGenerator

/-- Source: `RandomAccessGenerator::dependencies`: the copy's access-index
wire followed by its `vec_size` list-item wires. -/
def dependencies (gen : RandomAccessGenerator) : List Target :=
  Target.wire ⟨gen.gate_index, gen.gate.wire_access_index gen.copy⟩ ::
    (List.range gen.gate.vec_size).map
      (fun i => Target.wire ⟨gen.gate_index, gen.gate.wire_list_item i gen.copy⟩)

/-- Source: `RandomAccessGenerator::run_once`.  Reads the access index,
asserts `access_index < vec_size` (the failed assertion is modelled as
`none`), then emits the claimed element followed by the index bits
`F::from_bool(((access_index >> i) & 1) != 0)`, in that order. -/
def run_once (gen : RandomAccessGenerator) (w : Nat → GF) :
    Option (List (Target × GF)) :=
  let g := gen.gate
  let access_index := (w (g.wire_access_index gen.copy)).val
  if access_index < g.vec_size then
    some ((Target.wire ⟨gen.gate_index, g.wire_claimed_element gen.copy⟩,
            w (g.wire_list_item access_index gen.copy)) ::
      (List.range g.bits).map (fun i =>
        (Target.wire ⟨gen.gate_index, g.wire_bit i gen.copy⟩,
          if (access_index >>> i) &&& 1 ≠ 0 then (1 : GF) else 0)))
  else none

end RandomAccessGenerator

/-! ## The nonzero-test generator -/

/-- Source: `NonzeroTestGenerator { to_test, dummy }`. -/
structure NonzeroTestGenerator where
  to_test : Target
  dummy : Target
  deriving DecidableEq, Repr

namespace NonzeroTestGenerator

/-- Source: `NonzeroTestGenerator::dependencies`. -/
def dependencies (gen : NonzeroTestGenerator) : List Target := [gen.to_test]

/-- Source: `NonzeroTestGenerator::run_once`: sets the dummy target to `1`
when the watched value is zero and to its multiplicative inverse otherwise. -/
def run_once {F : Type} [Field F] [DecidableEq F] (gen : NonzeroTestGenerator)
    (w : Target → F) : List (Target × F) :=
  let to_test_value := w gen.to_test
  let dummy_value := if to_test_value = 0 then (1 : F) else to_test_value⁻¹
  [(gen.dummy, dummy_value)]

end NonzeroTestGenerator

/-! ## The witness-propagation engine

A dyn `WitnessGenerator` is modelled by its two capabilities: the watch
list and the `run` step (read-only witness in, finished-flag and generated
values out).  `PartitionWitness` internals (`iop/witness.rs`, outside the
slice) are modelled from the spec: values are keyed by equivalence-class
representative through `repMap`, writes go through the representative and
report whether it was newly populated, the last write wins. -/

/-- A generator behind the engine's shared capability interface
(`WitnessGenerator` trait: `watch_list` and `run`). -/
structure WitnessGenerator (F : Type) where
  watch_list : List Target
  run : (Target → Option F) → Bool × List (Target × F)

/-- Source: `PartialWitness::contains_all` via `witness.contains_all`:
every dependency is present. -/
def containsAll {F : Type} (w : Target → Option F) (deps : List Target) : Bool :=
  deps.all (fun t => (w t).isSome)

/-- Source: `SimpleGenerator::adapter` / `SimpleGeneratorAdapter`: watches
exactly the dependencies and, on `run`, checks `contains_all` and either
delegates to `run_once` reporting finished, or reports unfinished having
produced nothing. -/
def SimpleGeneratorAdapter {F : Type} (deps : List Target)
    (run_once : (Target → Option F) → List (Target × F)) : WitnessGenerator F :=
  { watch_list := deps
    run := fun w => if containsAll w deps then (true, run_once w) else (false, []) }

/-- Modelled from the spec: `PartitionWitness::set_target_returning_rep`
resolves the target to its representative, writes the value there
(last write wins), and returns the representative iff it was newly
populated.  Out-of-range representatives (impossible in a well-formed run)
are a no-op. -/
def setTargetReturningRep {F : Type} (repMap : Target → Nat)
    (values : List (Option F)) (t : Target) (v : F) :
    List (Option F) × Option Nat :=
  let r := repMap t
  match values[r]? with
  | none => (values, none)
  | some none => (values.set r (some v), some r)
  | some (some _) => (values.set r (some v), none)

/-- Source: the merge step of `generate_partial_witness`: drain the buffer
in order, writing each pair through its representative and collecting the
newly-populated representatives. -/
def mergeBuffer {F : Type} (repMap : Target → Nat) (values : List (Option F)) :
    List (Target × F) → List (Option F) × List Nat
  | [] => (values, [])
  | tv :: rest =>
    let s := setTargetReturningRep repMap values tv.1 tv.2
    let m := mergeBuffer repMap s.1 rest
    (m.1, s.2.toList ++ m.2)

/-- Modelled from the spec: `prover_data.generator_indices_by_watches` maps a
representative to the indices of the generators watching any equivalent
target. -/
def watchers {F : Type} (gens : List (WitnessGenerator F))
    (repMap : Target → Nat) (rep : Nat) : List Nat :=
  (List.range gens.length).filter (fun i =>
    match gens[i]? with
    | some gen => gen.watch_list.any (fun t => repMap t == rep)
    | none => false)

/-- Engine bookkeeping of one generation run: the partial assignment keyed
by representative, the per-generator expiry flags, and the remaining count. -/
structure EngineState (F : Type) where
  values : List (Option F)
  expired : List Bool
  remaining : Nat

/-- One generator's turn inside a pass of `generate_partial_witness`: skip
if expired; otherwise run it, mark it expired and decrement the remaining
count if it finished, merge its buffer, and enqueue the non-expired watchers
of every newly populated representative.  The third component is a ghost
log recording each actual invocation as (index, finished flag); it is pure
instrumentation for stating the temporal claims and carries no data the
loop reads. -/
def stepGen {F : Type} (gens : List (WitnessGenerator F)) (repMap : Target → Nat)
    (acc : EngineState F × List Nat × List (Nat × Bool)) (idx : Nat) :
    EngineState F × List Nat × List (Nat × Bool) :=
  let st := acc.1
  if st.expired.getD idx false then acc
  else
    match gens[idx]? with
    | none => acc
    | some gen =>
      let r := gen.run (fun t => st.values.getD (repMap t) none)
      let expired' := if r.1 then st.expired.set idx true else st.expired
      let remaining' := if r.1 then st.remaining - 1 else st.remaining
      let m := mergeBuffer repMap st.values r.2
      let enq := (m.2.map (fun rep =>
        (watchers gens repMap rep).filter (fun j => !(expired'.getD j false)))).flatten
      (⟨m.1, expired', remaining'⟩, acc.2.1 ++ enq, acc.2.2 ++ [(idx, r.1)])

/-- One pass over the pending worklist, in worklist order, starting from an
empty next-pass worklist and an empty pass log. -/
def runPass {F : Type} (gens : List (WitnessGenerator F)) (repMap : Target → Nat)
    (pending : List Nat) (st : EngineState F) :
    EngineState F × List Nat × List (Nat × Bool) :=
  pending.foldl (stepGen gens repMap) (st, [], [])

/-- The `while !pending_generator_indices.is_empty()` loop followed by the
`assert_eq!(remaining_generators, 0)` check, as a fuel-indexed recursion:
`none` means the fuel ran out (shown impossible for the fuel
`generatePartialWitness` supplies), `some none` is the failed terminal
assertion (deadlock panic), `some (some _)` is a completed run together
with its invocation log. -/
def genLoop {F : Type} (gens : List (WitnessGenerator F)) (repMap : Target → Nat) :
    Nat → List Nat → EngineState F → List (Nat × Bool) →
    Option (Option (EngineState F × List (Nat × Bool)))
  | 0, _, _, _ => none
  | fuel + 1, pending, st, log =>
    if pending.isEmpty then
      some (if st.remaining = 0 then some (st, log) else none)
    else
      let p := runPass gens repMap pending st
      genLoop gens repMap fuel p.2.1 p.1 (log ++ p.2.2)

/-- Number of unpopulated representatives; the loop's termination measure. -/
def unsetCount {F : Type} (values : List (Option F)) : Nat :=
  values.countP (fun v => v.isNone)

/-- Source: `generate_partial_witness`: seed the partition witness with the
inputs, queue every generator, run passes to fixpoint, and assert that no
generator remains.  The fuel `unsetCount values0 + 2` is an upper bound on
the number of passes plus one, proved sufficient below. -/
def generatePartialWitness {F : Type} (gens : List (WitnessGenerator F))
    (repMap : Target → Nat) (numValues : Nat) (inputs : List (Target × F)) :
    Option (Option (EngineState F × List (Nat × Bool))) :=
  let values0 := inputs.foldl
    (fun vs tv => (setTargetReturningRep repMap vs tv.1 tv.2).1)
    (List.replicate numValues none)
  genLoop gens repMap (unsetCount values0 + 2) (List.range gens.length)
    ⟨values0, List.replicate gens.length false, gens.length⟩ []

/-- No generator is invoked after an invocation in which it reported
completion: whenever the log splits around a finished entry, no later entry
carries the same generator index. -/
def noReinvoke (log : List (Nat × Bool)) : Prop :=
  ∀ l1 e l2, log = l1 ++ e :: l2 → e.2 = true → ∀ e2 ∈ l2, e2.1 ≠ e.1

/-- The engine invariant tying the ghost log to the expiry flags: the log
never reinvokes a finished generator, every generator that finished in the
log is marked expired, and the expiry table has one flag per generator. -/
def EngineInv {F : Type} (gens : List (WitnessGenerator F))
    (st : EngineState F) (log : List (Nat × Bool)) : Prop :=
  noReinvoke log ∧ (∀ i, (i, true) ∈ log → st.expired.getD i false = true) ∧
    st.expired.length = gens.length

/-! ## Helper lemmas: mode agreement of the per-copy evaluators -/

theorem foldl_fun_congr {α β : Type} {f g : β → α → β}
    (h : ∀ b a, f b a = g b a) (l : List α) (i : β) :
    l.foldl f i = l.foldl g i := by
  have hfg : f = g := funext fun b => funext fun a => h b a
  rw [hfg]

theorem map_fun_congr {α β : Type} {f g : α → β}
    (h : ∀ a, f a = g a) (l : List α) : l.map f = l.map g := by
  have hfg : f = g := funext h
  rw [hfg]

theorem pairSelectRec_eq {R : Type} [CommRing R] (b : R) :
    ∀ l : List R, pairSelectRec b l = pairSelect b l
  | [] => rfl
  | [_] => rfl
  | x :: y :: rest => by
    simp only [pairSelectRec, pairSelect, select_ext_generalized,
      pairSelectRec_eq b rest]

theorem evalCopyPacked_eq {R : Type} [CommRing R] (g : RandomAccessGate)
    (w : Nat → R) (copy : Nat) : g.evalCopyPacked w copy = g.evalCopy w copy := rfl

theorem evalCopyRec_eq {R : Type} [CommRing R] (g : RandomAccessGate)
    (w : Nat → R) (copy : Nat) : g.evalCopyRec w copy = g.evalCopy w copy := by
  simp only [RandomAccessGate.evalCopyRec, RandomAccessGate.evalCopy,
    sub_extension]
  rw [map_fun_congr (g := fun b => b * (b - 1))
      (fun b => by simp only [mul_sub_extension]; ring) _,
    foldl_fun_congr (g := fun acc b => fdouble acc + b)
      (fun acc b => by simp only [mul_add_extension, fdouble]; ring) _ _,
    foldl_fun_congr (g := fun items b => pairSelect b items)
      (fun items b => pairSelectRec_eq b items) _ _]

theorem base_packed_eq_unfiltered {R : Type} [CommRing R] (g : RandomAccessGate)
    (w : Nat → R) : g.eval_unfiltered_base_packed w = g.eval_unfiltered w := by
  simp only [RandomAccessGate.eval_unfiltered_base_packed,
    RandomAccessGate.eval_unfiltered]
  exact congrArg _ (map_fun_congr (fun c => evalCopyPacked_eq g w c) _)

theorem recursive_eq_unfiltered {R : Type} [CommRing R] (g : RandomAccessGate)
    (w : Nat → R) : g.eval_unfiltered_recursively w = g.eval_unfiltered w := by
  simp only [RandomAccessGate.eval_unfiltered_recursively,
    RandomAccessGate.eval_unfiltered]
  exact congrArg _ (map_fun_congr (fun c => evalCopyRec_eq g w c) _)

/-- C1.  For every random-access gate (any `bits`, any `num_copies`) and every
wire assignment, the constraint lists produced by single-point extension-field
evaluation, packed base-field evaluation (same inputs embedded in the base
field), and the recursive in-circuit evaluation are identical, constraint by
constraint and in the same order.  Stated over an arbitrary commutative ring,
which covers the base field, its extension, and each packed lane at once. -/
theorem c1_cross_mode_equivalence {R : Type} [CommRing R]
    (g : RandomAccessGate) (w : Nat → R) :
    g.eval_unfiltered w = g.eval_unfiltered_base_packed w ∧
      g.eval_unfiltered w = g.eval_unfiltered_recursively w :=
  ⟨(base_packed_eq_unfiltered g w).symm, (recursive_eq_unfiltered g w).symm⟩

/-! ## Constraint count -/

theorem evalCopy_length {R : Type} [CommRing R] (g : RandomAccessGate)
    (w : Nat → R) (copy : Nat) : (g.evalCopy w copy).length = g.bits + 2 := by
  simp [RandomAccessGate.evalCopy]

/-- C6.  `num_constraints()` returns `num_copies * (bits + 2)`, and for every
input the constraint list returned by `eval_unfiltered` has exactly that
length. -/
theorem c6_constraint_count {R : Type} [CommRing R] (g : RandomAccessGate)
    (w : Nat → R) :
    g.num_constraints = g.num_copies * (g.bits + 2) ∧
      (g.eval_unfiltered w).length = g.num_constraints := by
  refine ⟨rfl, ?_⟩
  simp only [RandomAccessGate.eval_unfiltered, List.length_flatten, List.map_map]
  rw [map_fun_congr (g := fun _ => g.bits + 2)
    (fun c => by simp [Function.comp, evalCopy_length]) _]
  simp [List.map_const', RandomAccessGate.num_constraints, Nat.mul_comm]

/-! ## Base-field evaluation routing -/

/-- C8.  The direct per-row base-field path `eval_unfiltered_base_one` fails
(panics) on every invocation; `eval_unfiltered_base_batch` routes through the
packed evaluator, returning exactly the values of
`eval_unfiltered_base_batch_packed` — which are, row by row, the single-point
constraint values. -/
theorem c8_base_one_disallowed {R : Type} [CommRing R] (g : RandomAccessGate)
    (w : Nat → R) (rows : List (Nat → R)) :
    g.eval_unfiltered_base_one w = none ∧
      g.eval_unfiltered_base_batch rows = g.eval_unfiltered_base_batch_packed rows ∧
      g.eval_unfiltered_base_batch_packed rows
        = (rows.map g.eval_unfiltered).flatten := by
  refine ⟨rfl, rfl, ?_⟩
  simp only [RandomAccessGate.eval_unfiltered_base_batch_packed]
  exact congrArg _ (map_fun_congr (fun r => base_packed_eq_unfiltered g r) _)

/-! ## Symbolic degree of the constraints -/

theorem pairSelect_totalDegree {d : ℕ} {b : MvPolynomial ℕ ℤ}
    (hb : b.totalDegree ≤ 1) :
    ∀ l : List (MvPolynomial ℕ ℤ), (∀ q ∈ l, q.totalDegree ≤ d) →
      ∀ p ∈ pairSelect b l, p.totalDegree ≤ d + 1
  | [], _, p, hp => by simp [pairSelect] at hp
  | [x], _, p, hp => by simp [pairSelect] at hp
  | x :: y :: rest, hl, p, hp => by
    rw [pairSelect, List.mem_cons] at hp
    rcases hp with rfl | hp
    · refine le_trans (MvPolynomial.totalDegree_add _ _) (max_le ?_ ?_)
      · exact le_trans (hl x (by simp)) (Nat.le_succ d)
      · refine le_trans (MvPolynomial.totalDegree_mul _ _) ?_
        have hyx : (y - x).totalDegree ≤ d :=
          le_trans (MvPolynomial.totalDegree_sub _ _)
            (max_le (hl y (by simp)) (hl x (by simp)))
        calc b.totalDegree + (y - x).totalDegree ≤ 1 + d :=
              Nat.add_le_add hb hyx
          _ = d + 1 := Nat.add_comm 1 d
    · exact pairSelect_totalDegree hb rest
        (fun q hq => hl q (by simp [hq])) p hp

theorem foldl_pairSelect_totalDegree :
    ∀ (bl : List (MvPolynomial ℕ ℤ)) (items : List (MvPolynomial ℕ ℤ)) (d : ℕ),
      (∀ b ∈ bl, b.totalDegree ≤ 1) → (∀ q ∈ items, q.totalDegree ≤ d) →
      ∀ p ∈ bl.foldl (fun items b => pairSelect b items) items,
        p.totalDegree ≤ d + bl.length
  | [], items, d, _, hitems, p, hp => by
    simpa using hitems p hp
  | b :: rest, items, d, hbl, hitems, p, hp => by
    rw [List.foldl_cons] at hp
    have hstep : ∀ q ∈ pairSelect b items, q.totalDegree ≤ d + 1 :=
      pairSelect_totalDegree (hbl b (by simp)) items hitems
    have := foldl_pairSelect_totalDegree rest (pairSelect b items) (d + 1)
      (fun q hq => hbl q (by simp [hq])) hstep p hp
    simpa [Nat.add_assoc, Nat.add_comm 1 rest.length] using this

theorem foldl_recon_totalDegree :
    ∀ (l : List (MvPolynomial ℕ ℤ)) (acc : MvPolynomial ℕ ℤ),
      (∀ b ∈ l, b.totalDegree ≤ 1) → acc.totalDegree ≤ 1 →
      (l.foldl (fun acc b => fdouble acc + b) acc).totalDegree ≤ 1
  | [], acc, _, hacc => hacc
  | b :: rest, acc, hl, hacc => by
    rw [List.foldl_cons]
    refine foldl_recon_totalDegree rest _ (fun q hq => hl q (by simp [hq])) ?_
    refine le_trans (MvPolynomial.totalDegree_add _ _) (max_le ?_ (hl b (by simp)))
    exact le_trans (MvPolynomial.totalDegree_add _ _) (max_le hacc hacc)

theorem headD_totalDegree_le {l : List (MvPolynomial ℕ ℤ)} {d : ℕ}
    (h : ∀ p ∈ l, p.totalDegree ≤ d) : (l.headD 0).totalDegree ≤ d := by
  cases l with
  | nil => simp [MvPolynomial.totalDegree_zero]
  | cons q t => exact h q (by simp)

/-- C5.  `degree()` returns `bits + 1`, and every constraint polynomial
emitted by `eval_unfiltered` — evaluation at the multivariate indeterminates
`X i`, one per wire — has total degree at most `bits + 1`. -/
theorem c5_degree_bound (g : RandomAccessGate) :
    g.degree = g.bits + 1 ∧
      ∀ p ∈ g.eval_unfiltered (fun i => (MvPolynomial.X i : MvPolynomial ℕ ℤ)),
        p.totalDegree ≤ g.degree := by
  refine ⟨rfl, ?_⟩
  intro p hp
  rw [RandomAccessGate.eval_unfiltered, List.mem_flatten] at hp
  obtain ⟨l, hl, hpl⟩ := hp
  rw [List.mem_map] at hl
  obtain ⟨copy, -, rfl⟩ := hl
  rw [RandomAccessGate.evalCopy] at hpl
  have hbits : ∀ b ∈ (List.range g.bits).map
      (fun i => (MvPolynomial.X (g.wire_bit i copy) : MvPolynomial ℕ ℤ)),
      b.totalDegree ≤ 1 := by
    intro b hb
    rw [List.mem_map] at hb
    obtain ⟨i, -, rfl⟩ := hb
    exact le_of_eq (MvPolynomial.totalDegree_X _)
  rw [List.mem_append, List.mem_append] at hpl
  rcases hpl with (hpl | hpl) | hpl
  · -- a boolean constraint b * (b - 1); present only when bits ≥ 1
    rw [List.mem_map] at hpl
    obtain ⟨b, hb, rfl⟩ := hpl
    have hbpos : 1 ≤ g.bits := by
      rw [List.mem_map] at hb
      obtain ⟨i, hi, -⟩ := hb
      rw [List.mem_range] at hi
      omega
    have hb1 : b.totalDegree ≤ 1 := hbits b hb
    refine le_trans (MvPolynomial.totalDegree_mul _ _) ?_
    have hbm1 : (b - 1).totalDegree ≤ 1 :=
      le_trans (MvPolynomial.totalDegree_sub _ _)
        (max_le hb1 (by simp [MvPolynomial.totalDegree_one]))
    have : b.totalDegree + (b - 1).totalDegree ≤ 2 := by omega
    exact le_trans this (by simp [RandomAccessGate.degree]; omega)
  · -- the index-reconstruction constraint
    rw [List.mem_singleton] at hpl
    subst hpl
    refine le_trans (MvPolynomial.totalDegree_sub _ _) (max_le ?_ ?_)
    · refine le_trans (foldl_recon_totalDegree _ 0 ?_ ?_) (by simp [RandomAccessGate.degree])
      · intro b hb
        rw [List.mem_reverse] at hb
        exact hbits b hb
      · simp [MvPolynomial.totalDegree_zero]
    · rw [MvPolynomial.totalDegree_X]
      simp [RandomAccessGate.degree]
  · -- the list-fold constraint
    rw [List.mem_singleton] at hpl
    subst hpl
    refine le_trans (MvPolynomial.totalDegree_sub _ _) (max_le ?_ ?_)
    · have hitems : ∀ q ∈ (List.range g.vec_size).map
          (fun i => (MvPolynomial.X (g.wire_list_item i copy) : MvPolynomial ℕ ℤ)),
          q.totalDegree ≤ 1 := by
        intro q hq
        rw [List.mem_map] at hq
        obtain ⟨i, -, rfl⟩ := hq
        exact le_of_eq (MvPolynomial.totalDegree_X _)
      have hfold := foldl_pairSelect_totalDegree
        ((List.range g.bits).map
          (fun i => (MvPolynomial.X (g.wire_bit i copy) : MvPolynomial ℕ ℤ)))
        ((List.range g.vec_size).map
          (fun i => (MvPolynomial.X (g.wire_list_item i copy) : MvPolynomial ℕ ℤ)))
        1 hbits hitems
      refine le_trans (headD_totalDegree_le hfold) ?_
      simp only [List.length_map, List.length_range, RandomAccessGate.degree]
      omega
    · rw [MvPolynomial.totalDegree_X]
      simp [RandomAccessGate.degree]

/-- Witness for C5 at `bits = 1`, `num_copies = 1`: the boolean constraint on
the single bit wire (wire 4) is among the emitted constraints and its total
degree is within the declared bound `2`. -/
theorem c5_degree_bound_witness :
    (RandomAccessGate.mk 1 1).degree = 1 + 1 ∧
      (MvPolynomial.X 4 * (MvPolynomial.X 4 - 1) : MvPolynomial ℕ ℤ).totalDegree
        ≤ (RandomAccessGate.mk 1 1).degree :=
  ⟨(c5_degree_bound ⟨1, 1⟩).1,
    (c5_degree_bound ⟨1, 1⟩).2 _ (List.Mem.head _)⟩

/-! ## Wire budget of `new_from_config` -/

theorem num_wires_closed (bits C : Nat) (hC1 : 1 ≤ C)
    (h2V : 2 + 2 ^ bits < USIZE) (hbU : bits < USIZE)
    (hab : (2 + 2 ^ bits) * C + C * bits < USIZE) :
    (RandomAccessGate.mk bits C).num_wires = (2 + 2 ^ bits) * C + C * bits := by
  have ha1 : 1 ≤ (2 + 2 ^ bits) * C := Nat.mul_pos (by positivity) hC1
  have hbb : bits ≤ C * bits := Nat.le_mul_of_pos_left bits hC1
  have hU : USIZE = 18446744073709551616 := by norm_num [USIZE]
  rw [hU] at h2V hbU hab
  simp only [RandomAccessGate.num_wires, RandomAccessGate.wire_bit_u,
    RandomAccessGate.vec_size, uadd, umul, usub, hU]
  rcases Nat.eq_zero_or_pos bits with hb0 | hb1
  · subst hb0
    simp only [pow_zero] at ha1 hab h2V ⊢
    omega
  · have hsub : (C - 1) * bits = C * bits - bits := by
      rw [Nat.sub_mul, one_mul]
    have hCle : C ≤ (2 + 2 ^ bits) * C := Nat.le_mul_of_pos_left C (by positivity)
    have hCU : C < 18446744073709551616 := by omega
    have hCE : (C + (18446744073709551616 - 1 % 18446744073709551616))
        % 18446744073709551616 = C - 1 := by omega
    have hBE : (bits + (18446744073709551616 - 1 % 18446744073709551616))
        % 18446744073709551616 = bits - 1 := by omega
    have hME : (2 + 2 ^ bits) % 18446744073709551616 = 2 + 2 ^ bits :=
      Nat.mod_eq_of_lt h2V
    rw [hCE, hBE, hME, hsub]
    generalize hA : (2 + 2 ^ bits) * C = a at hab ha1 ⊢
    generalize hB : C * bits = b at hab hbb ⊢
    omega

/-- C9.  For every circuit config (with `usize`-ranged wire counts) satisfying
`num_routed_wires ≥ 2 + 2^bits` and `num_wires ≥ 2 + 2^bits + bits`, the gate
built by `new_from_config` has `num_wires() = num_copies * (2 + 2^bits + bits)
≤ config.num_wires` and `num_routed_wires() = num_copies * (2 + 2^bits)
≤ config.num_routed_wires`: the chosen `num_copies` fits both budgets. -/
theorem c9_new_from_config_fits (config : CircuitConfig) (bits : Nat)
    (hwu : config.num_wires < USIZE) (hru : config.num_routed_wires < USIZE)
    (hr : 2 + 2 ^ bits ≤ config.num_routed_wires)
    (hw : 2 + 2 ^ bits + bits ≤ config.num_wires) :
    (RandomAccessGate.new_from_config config bits).num_wires
        = (RandomAccessGate.new_from_config config bits).num_copies
            * (2 + 2 ^ bits + bits) ∧
      (RandomAccessGate.new_from_config config bits).num_wires
        ≤ config.num_wires ∧
      (RandomAccessGate.new_from_config config bits).num_routed_wires
        = (RandomAccessGate.new_from_config config bits).num_copies
            * (2 + 2 ^ bits) ∧
      (RandomAccessGate.new_from_config config bits).num_routed_wires
        ≤ config.num_routed_wires := by
  have hg : RandomAccessGate.new_from_config config bits =
      RandomAccessGate.mk bits
        (min (config.num_routed_wires / (2 + 2 ^ bits))
          (config.num_wires / (2 + 2 ^ bits + bits))) := rfl
  rw [hg]
  have hVpos : 0 < 2 + 2 ^ bits := by positivity
  have hWpos : 0 < 2 + 2 ^ bits + bits := by positivity
  have hC1 : 1 ≤ min (config.num_routed_wires / (2 + 2 ^ bits))
      (config.num_wires / (2 + 2 ^ bits + bits)) :=
    le_min ((Nat.one_le_div_iff hVpos).mpr hr) ((Nat.one_le_div_iff hWpos).mpr hw)
  have hB1 : (min (config.num_routed_wires / (2 + 2 ^ bits))
      (config.num_wires / (2 + 2 ^ bits + bits))) * (2 + 2 ^ bits)
        ≤ config.num_routed_wires :=
    (Nat.le_div_iff_mul_le hVpos).mp (min_le_left _ _)
  have hB2 : (min (config.num_routed_wires / (2 + 2 ^ bits))
      (config.num_wires / (2 + 2 ^ bits + bits))) * (2 + 2 ^ bits + bits)
        ≤ config.num_wires :=
    (Nat.le_div_iff_mul_le hWpos).mp (min_le_right _ _)
  have hpow : 2 ^ bits < USIZE :=
    lt_of_le_of_lt (le_trans (Nat.le_add_left _ 2) hr) hru
  have hbU : bits < USIZE := lt_trans (Nat.lt_two_pow bits) hpow
  have hclosed := num_wires_closed bits
    (min (config.num_routed_wires / (2 + 2 ^ bits))
      (config.num_wires / (2 + 2 ^ bits + bits))) hC1
    (lt_of_le_of_lt hr hru) hbU (by nlinarith [hB2])
  refine ⟨?_, ?_, ?_, ?_⟩
  · rw [hclosed]; ring
  · rw [hclosed]
    calc (2 + 2 ^ bits) * (min (config.num_routed_wires / (2 + 2 ^ bits))
          (config.num_wires / (2 + 2 ^ bits + bits)))
        + (min (config.num_routed_wires / (2 + 2 ^ bits))
          (config.num_wires / (2 + 2 ^ bits + bits))) * bits
        = (min (config.num_routed_wires / (2 + 2 ^ bits))
          (config.num_wires / (2 + 2 ^ bits + bits))) * (2 + 2 ^ bits + bits) := by
          ring
      _ ≤ config.num_wires := hB2
  · show (2 + 2 ^ bits) * _ = _
    ring
  · exact le_trans (le_of_eq (Nat.mul_comm _ _)) hB1

/-- Witness for C9: with 8 routed and 8 total wires and `bits = 1`, the
constructed gate has one copy, 5 wires and 4 routed wires, inside both
budgets. -/
theorem c9_new_from_config_fits_witness :
    (RandomAccessGate.new_from_config ⟨8, 8⟩ 1).num_wires
        = (RandomAccessGate.new_from_config ⟨8, 8⟩ 1).num_copies * (2 + 2 ^ 1 + 1) ∧
      (RandomAccessGate.new_from_config ⟨8, 8⟩ 1).num_wires ≤ (8 : Nat) ∧
      (RandomAccessGate.new_from_config ⟨8, 8⟩ 1).num_routed_wires
        = (RandomAccessGate.new_from_config ⟨8, 8⟩ 1).num_copies * (2 + 2 ^ 1) ∧
      (RandomAccessGate.new_from_config ⟨8, 8⟩ 1).num_routed_wires ≤ (8 : Nat) :=
  c9_new_from_config_fits ⟨8, 8⟩ 1 (by norm_num [USIZE]) (by norm_num [USIZE])
    (by norm_num) (by norm_num)

/-! ## The random-access generator: fatal out-of-range check and outputs -/

/-- C3.  Whenever the access-index wire holds a value whose canonical integer
is at least `2^bits`, the generator run hits the range assertion and aborts
(`none`): it never emits witness values for a silently wrong access. -/
theorem c3_out_of_range_fatal (gen : RandomAccessGenerator) (w : Nat → GF)
    (h : gen.gate.vec_size ≤ (w (gen.gate.wire_access_index gen.copy)).val) :
    gen.run_once w = none := by
  simp only [RandomAccessGenerator.run_once]
  exact if_neg (Nat.not_lt.mpr h)

/-- Witness for C3: a `bits = 1` copy whose access wire holds `5 ≥ 2`
makes the generator abort. -/
theorem c3_out_of_range_fatal_witness :
    (RandomAccessGate.mk 1 1).vec_size
        ≤ (((fun _ => (5 : GF)) ((RandomAccessGate.mk 1 1).wire_access_index 0)).val) ∧
      RandomAccessGenerator.run_once ⟨0, ⟨1, 1⟩, 0⟩ (fun _ => (5 : GF)) = none :=
  ⟨by decide, c3_out_of_range_fatal ⟨0, ⟨1, 1⟩, 0⟩ (fun _ => (5 : GF)) (by decide)⟩

theorem bit_cond_eq (a i : Nat) :
    (if (a >>> i) &&& 1 ≠ 0 then (1 : GF) else 0)
      = if a.testBit i then (1 : GF) else 0 := by
  rw [Nat.shiftRight_eq_div_pow, Nat.and_one_is_mod, Nat.testBit_to_div_mod]
  rcases Nat.mod_two_eq_zero_or_one (a / 2 ^ i) with h | h <;> simp [h]

/-- C4.  The generator's declared dependencies are exactly the copy's
access-index wire followed by its `2^bits` list-item wires, and a run with an
in-range access index `a` outputs exactly the claimed-element wire set to the
list item at position `a` followed by, for each `i < bits`, the `i`-th bit
wire set to the `i`-th little-endian bit of `a` — and nothing else. -/
theorem c4_generator_deps_and_outputs (gen : RandomAccessGenerator) (w : Nat → GF) :
    gen.dependencies =
        Target.wire ⟨gen.gate_index, gen.gate.wire_access_index gen.copy⟩ ::
          (List.range gen.gate.vec_size).map
            (fun i => Target.wire ⟨gen.gate_index, gen.gate.wire_list_item i gen.copy⟩) ∧
      ((w (gen.gate.wire_access_index gen.copy)).val < gen.gate.vec_size →
        gen.run_once w = some
          ((Target.wire ⟨gen.gate_index, gen.gate.wire_claimed_element gen.copy⟩,
              w (gen.gate.wire_list_item
                ((w (gen.gate.wire_access_index gen.copy)).val) gen.copy)) ::
            (List.range gen.gate.bits).map (fun i =>
              (Target.wire ⟨gen.gate_index, gen.gate.wire_bit i gen.copy⟩,
                if ((w (gen.gate.wire_access_index gen.copy)).val).testBit i
                then (1 : GF) else 0)))) := by
  refine ⟨rfl, fun h => ?_⟩
  simp only [RandomAccessGenerator.run_once]
  rw [if_pos h]
  refine congrArg some (congrArg (List.cons _) (map_fun_congr (fun i => ?_) _))
  rw [bit_cond_eq]

/-- Witness for C4: `bits = 1`, all wires zero; the run emits the claimed
element (list item 0) and the zero bit, and nothing else. -/
theorem c4_generator_deps_and_outputs_witness :
    (((fun _ => (0 : GF)) ((RandomAccessGate.mk 1 1).wire_access_index 0)).val
        < (RandomAccessGate.mk 1 1).vec_size) ∧
      RandomAccessGenerator.run_once ⟨0, ⟨1, 1⟩, 0⟩ (fun _ => (0 : GF))
        = some [(Target.wire ⟨0, 1⟩, 0), (Target.wire ⟨0, 4⟩, 0)] := by
  refine ⟨by decide, ?_⟩
  rw [(c4_generator_deps_and_outputs ⟨0, ⟨1, 1⟩, 0⟩ (fun _ => (0 : GF))).2 (by decide)]
  decide

/-! ## The nonzero-test generator -/

/-- C10.  `NonzeroTestGenerator::run_once` never inverts zero: when the
watched value is zero it sets the dummy target to `1`, otherwise to the
multiplicative inverse of that (nonzero) value; in either case the value it
writes is nonzero. -/
theorem c10_nonzero_test_safe {F : Type} [Field F] [DecidableEq F]
    (gen : NonzeroTestGenerator) (w : Target → F) :
    (w gen.to_test = 0 → gen.run_once w = [(gen.dummy, 1)]) ∧
      (w gen.to_test ≠ 0 → gen.run_once w = [(gen.dummy, (w gen.to_test)⁻¹)]) ∧
      ∀ p ∈ gen.run_once w, p.2 ≠ 0 := by
  refine ⟨fun h => by simp [NonzeroTestGenerator.run_once, h],
    fun h => by simp [NonzeroTestGenerator.run_once, h], ?_⟩
  intro p hp
  simp only [NonzeroTestGenerator.run_once, List.mem_singleton] at hp
  subst hp
  by_cases h : w gen.to_test = 0
  · simp [h]
  · simp [h, inv_ne_zero h]

/-- Witness for C10 over `ℚ`: value `0` yields dummy `1`; value `3` yields
dummy `3⁻¹`. -/
theorem c10_nonzero_test_safe_witness :
    NonzeroTestGenerator.run_once (F := ℚ)
        ⟨Target.virtualTarget 0, Target.virtualTarget 1⟩ (fun _ => 0)
        = [(Target.virtualTarget 1, 1)] ∧
      NonzeroTestGenerator.run_once (F := ℚ)
        ⟨Target.virtualTarget 0, Target.virtualTarget 1⟩ (fun _ => 3)
        = [(Target.virtualTarget 1, 3⁻¹)] :=
  ⟨(c10_nonzero_test_safe _ _).1 rfl, (c10_nonzero_test_safe _ _).2.1 (by simp)⟩

/-! ## Engine lemmas: the unset-representative count -/

theorem countP_isNone_set_le {F : Type} :
    ∀ (l : List (Option F)) (r : Nat) (v : F),
      (l.set r (some v)).countP (fun x => x.isNone)
        ≤ l.countP (fun x => x.isNone)
  | [], _, _ => Nat.le_refl _
  | x :: t, 0, v => by
    cases x <;> simp [List.countP_cons]
  | x :: t, r + 1, v => by
    simp only [List.set_cons_succ, List.countP_cons]
    have := countP_isNone_set_le t r v
    exact Nat.add_le_add_right this _

theorem countP_isNone_set_lt {F : Type} :
    ∀ (l : List (Option F)) (r : Nat) (v : F), l[r]? = some none →
      (l.set r (some v)).countP (fun x => x.isNone)
        < l.countP (fun x => x.isNone)
  | [], r, v, h => by simp at h
  | x :: t, 0, v, h => by
    rw [List.getElem?_cons_zero, Option.some_inj] at h
    subst h
    simp [List.countP_cons]
  | x :: t, r + 1, v, h => by
    rw [List.getElem?_cons_succ] at h
    simp only [List.set_cons_succ, List.countP_cons]
    have := countP_isNone_set_lt t r v h
    exact Nat.add_lt_add_right this _

theorem setRep_unset_le {F : Type} (repMap : Target → Nat)
    (values : List (Option F)) (t : Target) (v : F) :
    unsetCount (setTargetReturningRep repMap values t v).1 ≤ unsetCount values := by
  simp only [setTargetReturningRep, unsetCount]
  rcases hv : values[repMap t]? with _ | (_ | x) <;> simp only [hv]
  · exact Nat.le_refl _
  · exact countP_isNone_set_le values _ v
  · exact countP_isNone_set_le values _ v

theorem setRep_newly_unset_lt {F : Type} (repMap : Target → Nat)
    (values : List (Option F)) (t : Target) (v : F) (r : Nat)
    (h : (setTargetReturningRep repMap values t v).2 = some r) :
    unsetCount (setTargetReturningRep repMap values t v).1 < unsetCount values := by
  simp only [setTargetReturningRep, unsetCount] at h ⊢
  rcases hv : values[repMap t]? with _ | (_ | x) <;> simp only [hv] at h ⊢
  · cases h
  · exact countP_isNone_set_lt values _ v hv
  · cases h

theorem mergeBuffer_unset_le {F : Type} (repMap : Target → Nat) :
    ∀ (buf : List (Target × F)) (values : List (Option F)),
      unsetCount (mergeBuffer repMap values buf).1 ≤ unsetCount values
  | [], values => Nat.le_refl _
  | tv :: rest, values => by
    simp only [mergeBuffer]
    exact le_trans (mergeBuffer_unset_le repMap rest _) (setRep_unset_le repMap values tv.1 tv.2)

theorem mergeBuffer_newReps_lt {F : Type} (repMap : Target → Nat) :
    ∀ (buf : List (Target × F)) (values : List (Option F)),
      (mergeBuffer repMap values buf).2 ≠ [] →
      unsetCount (mergeBuffer repMap values buf).1 < unsetCount values
  | [], values, h => absurd rfl h
  | tv :: rest, values, h => by
    simp only [mergeBuffer] at h ⊢
    rcases hs : (setTargetReturningRep repMap values tv.1 tv.2).2 with _ | r
    · rw [hs] at h
      simp only [Option.toList_none, List.nil_append] at h
      exact lt_of_lt_of_le (mergeBuffer_newReps_lt repMap rest _ h)
        (setRep_unset_le repMap values tv.1 tv.2)
    · exact lt_of_le_of_lt (mergeBuffer_unset_le repMap rest _)
        (setRep_newly_unset_lt repMap values tv.1 tv.2 r hs)

/-! ## Engine lemmas: one generator step and one pass -/

theorem flatten_map_ne_nil {α β : Type} {l : List α} {f : α → List β}
    (h : (l.map f).flatten ≠ []) : l ≠ [] := by
  intro hl
  subst hl
  exact h rfl

theorem stepGen_spec {F : Type} (gens : List (WitnessGenerator F))
    (repMap : Target → Nat) (st : EngineState F) (next : List Nat)
    (log : List (Nat × Bool)) (idx : Nat) :
    ∃ enq lg,
      (stepGen gens repMap (st, next, log) idx).2.1 = next ++ enq ∧
      (stepGen gens repMap (st, next, log) idx).2.2 = log ++ lg ∧
      unsetCount (stepGen gens repMap (st, next, log) idx).1.values
          ≤ unsetCount st.values ∧
      (enq ≠ [] →
        unsetCount (stepGen gens repMap (st, next, log) idx).1.values
          < unsetCount st.values) := by
  by_cases hexp : st.expired.getD idx false
  · have hout : stepGen gens repMap (st, next, log) idx = (st, next, log) := by
      simp only [stepGen]
      rw [if_pos hexp]
    exact ⟨[], [], by simp [hout], by simp [hout], by simp [hout],
      fun h => absurd rfl h⟩
  · rcases hg : gens[idx]? with _ | gen
    · have hout : stepGen gens repMap (st, next, log) idx = (st, next, log) := by
        simp only [stepGen]
        rw [if_neg hexp, hg]
      exact ⟨[], [], by simp [hout], by simp [hout], by simp [hout],
        fun h => absurd rfl h⟩
    · simp only [stepGen]
      rw [if_neg hexp, hg]
      refine ⟨_, _, rfl, rfl, ?_, ?_⟩
      · exact mergeBuffer_unset_le repMap _ st.values
      · intro henq
        refine mergeBuffer_newReps_lt repMap _ st.values ?_
        intro hnil
        exact (flatten_map_ne_nil henq) hnil

theorem runPass_foldl_spec {F : Type} (gens : List (WitnessGenerator F))
    (repMap : Target → Nat) :
    ∀ (pending : List Nat) (st : EngineState F) (next : List Nat)
      (log : List (Nat × Bool)),
      ∃ enq lg,
        (pending.foldl (stepGen gens repMap) (st, next, log)).2.1 = next ++ enq ∧
        (pending.foldl (stepGen gens repMap) (st, next, log)).2.2 = log ++ lg ∧
        unsetCount (pending.foldl (stepGen gens repMap) (st, next, log)).1.values
            ≤ unsetCount st.values ∧
        (enq ≠ [] →
          unsetCount (pending.foldl (stepGen gens repMap) (st, next, log)).1.values
            < unsetCount st.values)
  | [], st, next, log =>
    ⟨[], [], by simp, by simp, Nat.le_refl _, fun h => absurd rfl h⟩
  | idx :: rest, st, next, log => by
    rw [List.foldl_cons]
    obtain ⟨enq1, lg1, hnext1, hlog1, hle1, hlt1⟩ :=
      stepGen_spec gens repMap st next log idx
    obtain ⟨enq2, lg2, hnext2, hlog2, hle2, hlt2⟩ :=
      runPass_foldl_spec gens repMap rest
        (stepGen gens repMap (st, next, log) idx).1
        (stepGen gens repMap (st, next, log) idx).2.1
        (stepGen gens repMap (st, next, log) idx).2.2
    refine ⟨enq1 ++ enq2, lg1 ++ lg2, ?_, ?_, ?_, ?_⟩
    · exact hnext2.trans (by rw [hnext1, List.append_assoc])
    · exact hlog2.trans (by rw [hlog1, List.append_assoc])
    · exact le_trans hle2 hle1
    · intro hne
      rcases List.eq_nil_or_concat enq2 with h2 | ⟨l2, a2, rfl⟩
      · subst h2
        rw [List.append_nil] at hne
        exact lt_of_le_of_lt hle2 (hlt1 hne)
      · exact lt_of_lt_of_le (hlt2 (by simp)) hle1

/-! ## Engine: termination and the terminal assertion -/

theorem genLoop_remaining_zero {F : Type} (gens : List (WitnessGenerator F))
    (repMap : Target → Nat) :
    ∀ (fuel : Nat) (pending : List Nat) (st : EngineState F)
      (log : List (Nat × Bool)) (st' : EngineState F) (log' : List (Nat × Bool)),
      genLoop gens repMap fuel pending st log = some (some (st', log')) →
      st'.remaining = 0
  | 0, pending, st, log, st', log', h => by simp [genLoop] at h
  | fuel + 1, pending, st, log, st', log', h => by
    simp only [genLoop] at h
    by_cases hp : pending.isEmpty
    · rw [if_pos hp] at h
      by_cases hr : st.remaining = 0
      · rw [if_pos hr] at h
        have h2 := Option.some.inj (Option.some.inj h)
        obtain ⟨rfl, rfl⟩ := Prod.mk.injEq _ _ _ _ ▸ h2
        · exact hr
      · rw [if_neg hr] at h
        simp at h
    · rw [if_neg hp] at h
      exact genLoop_remaining_zero gens repMap fuel _ _ _ st' log' h

theorem genLoop_fuel_sufficient {F : Type} (gens : List (WitnessGenerator F))
    (repMap : Target → Nat) :
    ∀ (fuel : Nat) (pending : List Nat) (st : EngineState F)
      (log : List (Nat × Bool)),
      unsetCount st.values + 2 ≤ fuel →
      genLoop gens repMap fuel pending st log ≠ none
  | 0, _, _, _, hf => by omega
  | fuel + 1, pending, st, log, hf => by
    simp only [genLoop]
    by_cases hp : pending.isEmpty
    · rw [if_pos hp]
      simp
    · rw [if_neg hp]
      obtain ⟨enq, lg, hnext, hlog, hle, hlt⟩ :=
        runPass_foldl_spec gens repMap pending st [] []
    
      rcases List.eq_nil_or_concat enq with h2 | ⟨l2, a2, rfl⟩
      · subst h2
        have hnext' : (runPass gens repMap pending st).2.1 = [] := by
          simpa [runPass] using hnext
        rw [hnext']
        obtain ⟨fuel', rfl⟩ : ∃ k, fuel = k + 1 := ⟨fuel - 1, by omega⟩
        simp [genLoop]
      · have hlt' : unsetCount (runPass gens repMap pending st).1.values
            < unsetCount st.values := by
          simpa [runPass] using hlt (by simp)
        exact genLoop_fuel_sufficient gens repMap fuel
          (runPass gens repMap pending st).2.1
          (runPass gens repMap pending st).1
          (log ++ (runPass gens repMap pending st).2.2) (by omega)

/-- C2.  `generate_partial_witness` always terminates (the supplied fuel,
bounded by the number of unpopulated representatives, is never exhausted),
and a witness is returned only when the remaining-generator count has
reached zero; if the worklist empties with generators remaining, the run
ends in the fatal terminal assertion (`some none`), never in a partial
witness. -/
theorem c2_generation_terminates (F : Type) (gens : List (WitnessGenerator F))
    (repMap : Target → Nat) (numValues : Nat) (inputs : List (Target × F)) :
    generatePartialWitness gens repMap numValues inputs ≠ none ∧
      ∀ st log, generatePartialWitness gens repMap numValues inputs
          = some (some (st, log)) → st.remaining = 0 := by
  constructor
  · simp only [generatePartialWitness]
    exact genLoop_fuel_sufficient gens repMap _ _ _ _ (Nat.le_refl _)
  · intro st log h
    simp only [generatePartialWitness] at h
    exact genLoop_remaining_zero gens repMap _ _ _ _ st log h

/-- Witness for C2: a single dependency-free generator writing one value;
generation terminates, and the returned state indeed has remaining count 0. -/
theorem c2_generation_terminates_witness :
    generatePartialWitness
        [⟨[Target.virtualTarget 0], fun _ => (true, [(Target.virtualTarget 1, (0 : Int))])⟩]
        (fun t => match t with
          | Target.wire w => w.input
          | Target.virtualTarget i => i) 2 [] ≠ none ∧
      (EngineState.mk [none, some (0 : Int)] [true] 0).remaining = 0 :=
  ⟨(c2_generation_terminates Int _ _ 2 []).1,
    (c2_generation_terminates Int
        [⟨[Target.virtualTarget 0], fun _ => (true, [(Target.virtualTarget 1, (0 : Int))])⟩]
        (fun t => match t with
          | Target.wire w => w.input
          | Target.virtualTarget i => i) 2 []).2
      (EngineState.mk [none, some (0 : Int)] [true] 0) [(0, true)] (by rfl)⟩

/-! ## Engine: expiry flags and the invocation log -/

theorem getD_set_true_self (l : List Bool) (i : Nat) (h : i < l.length) :
    (l.set i true).getD i false = true := by
  rw [List.getD_eq_getElem?_getD, List.getElem?_set_self h]
  rfl

theorem getD_set_true_mono (l : List Bool) (i j : Nat)
    (h : l.getD j false = true) : (l.set i true).getD j false = true := by
  by_cases hij : i = j
  · subst hij
    by_cases hlen : i < l.length
    · rw [List.getD_eq_getElem?_getD, List.getElem?_set_self hlen]
      rfl
    · rw [List.set_eq_of_length_le (Nat.le_of_not_lt hlen)]
      exact h
  · rw [List.getD_eq_getElem?_getD, List.getElem?_set_ne hij,
      ← List.getD_eq_getElem?_getD]
    exact h

theorem noReinvoke_nil : noReinvoke [] := by
  intro l1 e l2 heq he2 e2 hmem
  cases l1 <;> simp at heq

theorem noReinvoke_append_single {log : List (Nat × Bool)} {P : Nat → Prop}
    (h1 : noReinvoke log) (h2 : ∀ i, (i, true) ∈ log → P i)
    {idx : Nat} (hidx : ¬ P idx) (fin : Bool) :
    noReinvoke (log ++ [(idx, fin)]) := by
  intro l1 e l2 heq he2 e2 hmem
  rcases List.eq_nil_or_concat l2 with rfl | ⟨l2', a, rfl⟩
  · simp at hmem
  · rw [List.concat_eq_append] at heq hmem
    have heq' : log ++ [(idx, fin)] = (l1 ++ e :: l2') ++ [a] := by
      rw [heq]
      simp
    obtain ⟨hlog', ha⟩ := List.append_inj' heq' rfl
    have ha' : a = (idx, fin) := by simpa using ha.symm
    have hemem : e ∈ log := by
      rw [hlog']
      exact List.mem_append.mpr (Or.inr (List.mem_cons_self e l2'))
    have heP : P e.1 := h2 e.1 (by
      have he' : (e.1, true) = e := by rw [← he2]
      rw [he']
      exact hemem)
    rcases List.mem_append.mp hmem with hmem' | hmem'
    · exact h1 l1 e l2' hlog' he2 e2 hmem'
    · rw [List.mem_singleton] at hmem'
      subst hmem'
      rw [ha']
      intro hcontra
      have hcontra' : idx = e.1 := hcontra
      exact hidx (by rw [hcontra']; exact heP)

theorem stepGen_skip_eq {F : Type} {gens : List (WitnessGenerator F)}
    {repMap : Target → Nat} {st : EngineState F} {next : List Nat}
    {log : List (Nat × Bool)} {idx : Nat}
    (hexp : st.expired.getD idx false = true) :
    stepGen gens repMap (st, next, log) idx = (st, next, log) := by
  simp only [stepGen]
  rw [if_pos hexp]

theorem stepGen_nogen_eq {F : Type} {gens : List (WitnessGenerator F)}
    {repMap : Target → Nat} {st : EngineState F} {next : List Nat}
    {log : List (Nat × Bool)} {idx : Nat}
    (hexp : ¬(st.expired.getD idx false = true)) (hg : gens[idx]? = none) :
    stepGen gens repMap (st, next, log) idx = (st, next, log) := by
  simp only [stepGen]
  rw [if_neg hexp, hg]

theorem stepGen_run_eq {F : Type} {gens : List (WitnessGenerator F)}
    {repMap : Target → Nat} {st : EngineState F} {next : List Nat}
    {log : List (Nat × Bool)} {idx : Nat} {gen : WitnessGenerator F}
    (hexp : ¬(st.expired.getD idx false = true)) (hg : gens[idx]? = some gen) :
    stepGen gens repMap (st, next, log) idx =
      (⟨(mergeBuffer repMap st.values
            (gen.run (fun t => st.values.getD (repMap t) none)).2).1,
        (if (gen.run (fun t => st.values.getD (repMap t) none)).1
          then st.expired.set idx true else st.expired),
        (if (gen.run (fun t => st.values.getD (repMap t) none)).1
          then st.remaining - 1 else st.remaining)⟩,
       next ++ ((mergeBuffer repMap st.values
            (gen.run (fun t => st.values.getD (repMap t) none)).2).2.map
          (fun rep => (watchers gens repMap rep).filter
            (fun j => !((if (gen.run (fun t => st.values.getD (repMap t) none)).1
              then st.expired.set idx true else st.expired).getD j false)))).flatten,
       log ++ [(idx, (gen.run (fun t => st.values.getD (repMap t) none)).1)]) := by
  simp only [stepGen]
  rw [if_neg hexp, hg]

theorem stepGen_finished_expired {F : Type} {gens : List (WitnessGenerator F)}
    {repMap : Target → Nat} {st : EngineState F} {next : List Nat}
    {log : List (Nat × Bool)} {idx : Nat} {gen : WitnessGenerator F}
    (hlen : st.expired.length = gens.length)
    (hexp : ¬(st.expired.getD idx false = true)) (hg : gens[idx]? = some gen)
    (hfin : (gen.run (fun t => st.values.getD (repMap t) none)).1 = true) :
    (stepGen gens repMap (st, next, log) idx).1.expired.getD idx false = true := by
  rw [stepGen_run_eq hexp hg]
  simp only [hfin, if_true]
  obtain ⟨hidx, -⟩ := List.getElem?_eq_some.mp hg
  exact getD_set_true_self _ idx (by rw [hlen]; exact hidx)

theorem stepGen_inv {F : Type} {gens : List (WitnessGenerator F)}
    {repMap : Target → Nat} {st : EngineState F} {next : List Nat}
    {log : List (Nat × Bool)} {idx : Nat}
    (h : EngineInv gens st log) :
    EngineInv gens (stepGen gens repMap (st, next, log) idx).1
      ((stepGen gens repMap (st, next, log) idx).2.2) := by
  obtain ⟨hnr, hexpd, hlen⟩ := h
  by_cases hexp : st.expired.getD idx false = true
  · rw [stepGen_skip_eq hexp]
    exact ⟨hnr, hexpd, hlen⟩
  · rcases hg : gens[idx]? with _ | gen
    · rw [stepGen_nogen_eq hexp hg]
      exact ⟨hnr, hexpd, hlen⟩
    · rw [stepGen_run_eq hexp hg]
      refine ⟨?_, ?_, ?_⟩
      · exact noReinvoke_append_single hnr hexpd hexp _
      · intro i hi
        rcases List.mem_append.mp hi with hi' | hi'
        · have hold := hexpd i hi'
          by_cases hfin : (gen.run (fun t => st.values.getD (repMap t) none)).1 = true
          · simp only [hfin, if_true]
            exact getD_set_true_mono _ idx i hold
          · simp only [if_neg hfin]
            exact hold
        · rw [List.mem_singleton] at hi'
          obtain ⟨rfl, hfin⟩ := Prod.mk.injEq _ _ _ _ ▸ hi'
          rw [← hfin]
          simp only [if_true]
          obtain ⟨hidx, -⟩ := List.getElem?_eq_some.mp hg
          exact getD_set_true_self _ i (by rw [hlen]; exact hidx)
      · by_cases hfin : (gen.run (fun t => st.values.getD (repMap t) none)).1 = true
        · simp only [hfin, if_true, List.length_set]
          exact hlen
        · simp only [if_neg hfin]
          exact hlen

theorem foldl_inv {F : Type} {gens : List (WitnessGenerator F)}
    (repMap : Target → Nat) :
    ∀ (pending : List Nat) (st : EngineState F) (next : List Nat)
      (log : List (Nat × Bool)),
      EngineInv gens st log →
      EngineInv gens (pending.foldl (stepGen gens repMap) (st, next, log)).1
        ((pending.foldl (stepGen gens repMap) (st, next, log)).2.2)
  | [], st, next, log, h => h
  | idx :: rest, st, next, log, h => by
    rw [List.foldl_cons]
    exact foldl_inv repMap rest (stepGen gens repMap (st, next, log) idx).1
      (stepGen gens repMap (st, next, log) idx).2.1
      (stepGen gens repMap (st, next, log) idx).2.2 (stepGen_inv h)

theorem stepGen_log_shift {F : Type} (gens : List (WitnessGenerator F))
    (repMap : Target → Nat) (st : EngineState F) (next : List Nat)
    (log : List (Nat × Bool)) (idx : Nat) :
    stepGen gens repMap (st, next, log) idx
      = ((stepGen gens repMap (st, next, ([] : List (Nat × Bool))) idx).1,
         (stepGen gens repMap (st, next, []) idx).2.1,
         log ++ (stepGen gens repMap (st, next, []) idx).2.2) := by
  by_cases hexp : st.expired.getD idx false = true
  · rw [stepGen_skip_eq hexp, stepGen_skip_eq hexp]
    simp
  · rcases hg : gens[idx]? with _ | gen
    · rw [stepGen_nogen_eq hexp hg, stepGen_nogen_eq hexp hg]
      simp
    · rw [stepGen_run_eq hexp hg, stepGen_run_eq hexp hg]
      simp

theorem foldl_log_shift {F : Type} (gens : List (WitnessGenerator F))
    (repMap : Target → Nat) :
    ∀ (pending : List Nat) (st : EngineState F) (next : List Nat)
      (log : List (Nat × Bool)),
      pending.foldl (stepGen gens repMap) (st, next, log)
        = ((pending.foldl (stepGen gens repMap) (st, next, [])).1,
           (pending.foldl (stepGen gens repMap) (st, next, [])).2.1,
           log ++ (pending.foldl (stepGen gens repMap) (st, next, [])).2.2)
  | [], st, next, log => by simp
  | idx :: rest, st, next, log => by
    rw [List.foldl_cons, List.foldl_cons,
      stepGen_log_shift gens repMap st next log idx]
    rcases hS : stepGen gens repMap (st, next, ([] : List (Nat × Bool))) idx
      with ⟨a, b, c⟩
    rw [foldl_log_shift gens repMap rest a b (log ++ c),
      foldl_log_shift gens repMap rest a b c]
    simp

theorem genLoop_noReinvoke {F : Type} (gens : List (WitnessGenerator F))
    (repMap : Target → Nat) :
    ∀ (fuel : Nat) (pending : List Nat) (st : EngineState F)
      (log : List (Nat × Bool)) (st' : EngineState F) (log' : List (Nat × Bool)),
      EngineInv gens st log →
      genLoop gens repMap fuel pending st log = some (some (st', log')) →
      noReinvoke log'
  | 0, pending, st, log, st', log', _, h => by simp [genLoop] at h
  | fuel + 1, pending, st, log, st', log', hInv, h => by
    simp only [genLoop] at h
    by_cases hp : pending.isEmpty
    · rw [if_pos hp] at h
      by_cases hr : st.remaining = 0
      · rw [if_pos hr] at h
        have h2 := Option.some.inj (Option.some.inj h)
        obtain ⟨rfl, rfl⟩ := Prod.mk.injEq _ _ _ _ ▸ h2
        · exact hInv.1
      · rw [if_neg hr] at h
        simp at h
    · rw [if_neg hp] at h
      have hinv2 : EngineInv gens (runPass gens repMap pending st).1
          (log ++ (runPass gens repMap pending st).2.2) := by
        have hfold := foldl_inv repMap pending st [] log hInv
        rw [foldl_log_shift gens repMap pending st [] log] at hfold
        simpa [runPass] using hfold
      exact genLoop_noReinvoke gens repMap fuel _ _ _ st' log' hinv2 h

/-- C7.  One-shot semantics: the simple-generator adapter's `run` reports
finished and invokes `run_once` precisely when every declared dependency is
present (producing nothing and reporting unfinished otherwise); when a
generator's `run` reports finished the engine marks it expired; and over a
whole `generate_partial_witness` run, the invocation log never re-invokes a
generator after the invocation in which it reported completion. -/
theorem c7_one_shot_runs_exactly_once :
    (∀ (F : Type) (deps : List Target)
        (ro : (Target → Option F) → List (Target × F)) (w : Target → Option F),
      (SimpleGeneratorAdapter deps ro).watch_list = deps ∧
        (((SimpleGeneratorAdapter deps ro).run w).1 = true
          ↔ containsAll w deps = true) ∧
        (containsAll w deps = true →
          (SimpleGeneratorAdapter deps ro).run w = (true, ro w)) ∧
        (containsAll w deps = false →
          (SimpleGeneratorAdapter deps ro).run w = (false, []))) ∧
    (∀ (F : Type) (gens : List (WitnessGenerator F)) (repMap : Target → Nat)
        (st : EngineState F) (next : List Nat) (log : List (Nat × Bool))
        (idx : Nat) (gen : WitnessGenerator F),
      st.expired.length = gens.length →
      ¬(st.expired.getD idx false = true) → gens[idx]? = some gen →
      (gen.run (fun t => st.values.getD (repMap t) none)).1 = true →
      (stepGen gens repMap (st, next, log) idx).1.expired.getD idx false = true) ∧
    (∀ (F : Type) (gens : List (WitnessGenerator F)) (repMap : Target → Nat)
        (numValues : Nat) (inputs : List (Target × F)) (st : EngineState F)
        (log : List (Nat × Bool)),
      generatePartialWitness gens repMap numValues inputs = some (some (st, log)) →
      noReinvoke log) := by
  refine ⟨?_, ?_, ?_⟩
  · intro F deps ro w
    refine ⟨rfl, ?_, fun h => ?_, fun h => ?_⟩
    · by_cases hc : containsAll w deps <;> simp [SimpleGeneratorAdapter, hc]
    · simp [SimpleGeneratorAdapter, h]
    · simp [SimpleGeneratorAdapter, h]
  · intro F gens repMap st next log idx gen hlen hexp hg hfin
    exact stepGen_finished_expired hlen hexp hg hfin
  · intro F gens repMap numValues inputs st log h
    simp only [generatePartialWitness] at h
    refine genLoop_noReinvoke gens repMap _ _ _ _ st log ⟨noReinvoke_nil, ?_, ?_⟩ h
    · intro i hi
      simp at hi
    · simp

/-- Witness for C7: a satisfied adapter reports finished, and the log of the
one-generator run from the C2 scenario never re-invokes after completion. -/
theorem c7_one_shot_runs_exactly_once_witness :
    ((SimpleGeneratorAdapter [Target.virtualTarget 0]
        (fun _ => ([] : List (Target × Int)))).run (fun _ => some (0 : Int))).1
        = true ∧
      noReinvoke [(0, true)] := by
  constructor
  · exact (c7_one_shot_runs_exactly_once.1 Int [Target.virtualTarget 0]
      (fun _ => []) (fun _ => some 0)).2.1.mpr (by decide)
  · exact c7_one_shot_runs_exactly_once.2.2 Int
      [⟨[Target.virtualTarget 0], fun _ => (true, [(Target.virtualTarget 1, (0 : Int))])⟩]
      (fun t => match t with
        | Target.wire w => w.input
        | Target.virtualTarget i => i)
      2 [] (EngineState.mk [none, some (0 : Int)] [true] 0) [(0, true)] (by rfl)
